import Mathlib

/-!
Shallow embedding of the keyword-detection-and-scoring module of
`src/KWS.py`.  Python strings are modelled as `List Char`, Python
`str.lower` as the character-wise `Char.toLower`, the Python dictionary
`keyword_positions` as an association list, and arithmetic on Python
numbers as exact rationals `ℚ`.  A Python exception escaping a function
(the `KeyError` that line 57 of `detect_keywords` can raise) is modelled
by the function returning `none`.
-/

/-- Python `s.lower()` applied on lines 49 and 51 of `src/KWS.py`,
modelled character-wise. -/
def pyLower (s : List Char) : List Char := s.map Char.toLower

/-- Python slice `s[a:b]` for `0 ≤ a ≤ b ≤ len s`. -/
def pySlice (s : List Char) (a b : Nat) : List Char := (s.drop a).take (b - a)

/-- Does `needle` match at the head of `hay`, i.e. Python
`hay[0:len(needle)] == needle`. -/
def takeMatch (needle hay : List Char) : Bool :=
  decide (hay.take needle.length = needle)

/-- Scanner for Python `hay.find(needle)` starting at index `j`. -/
def strFindAux (needle : List Char) : List Char → Nat → Option Nat
  | [], j => if takeMatch needle [] then some j else none
  | c :: tl, j =>
    if takeMatch needle (c :: tl) then some j else strFindAux needle tl (j + 1)

/-- Python `hay.find(needle)` (line 52 of `src/KWS.py`): the lowest index at
which `needle` occurs in `hay`, with Python's `-1` modelled as `none`. -/
def strFind (hay needle : List Char) : Option Nat := strFindAux needle hay 0

/-- Key list of the dict comprehension on line 47 of `src/KWS.py`:
one key per distinct keyword, in order of first appearance. -/
def dedupFirst : List (List Char) → List (List Char)
  | [] => []
  | k :: rest => k :: (dedupFirst rest).filter (fun x => decide (x ≠ k))

/-- Line 47 of `src/KWS.py`: every input keyword becomes a dict key holding
an empty occurrence list. -/
def dictInit (keywords : List (List Char)) : List (List Char × List (Nat × Nat)) :=
  (dedupFirst keywords).map (fun k => (k, ([] : List (Nat × Nat))))

/-- Line 57 of `src/KWS.py`, the dict access plus append: append `v` to the
entry with key `k`, or fail (Python `KeyError`) when `k` is not a key. -/
def dictAppend (k : List Char) (v : Nat × Nat) :
    List (List Char × List (Nat × Nat)) → Option (List (List Char × List (Nat × Nat)))
  | [] => none
  | e :: rest =>
    if e.1 = k then some ((e.1, e.2 ++ [v]) :: rest)
    else (dictAppend k v rest).map (fun d => e :: d)

/-- Python `keyword_positions.get(k, [])` (lines 82 and 83 of `src/KWS.py`). -/
def dictGet (d : List (List Char × List (Nat × Nat))) (k : List Char) :
    List (Nat × Nat) :=
  match d.find? (fun e => decide (e.1 = k)) with
  | some e => e.2
  | none => []

/-- The three accumulators `keyword_intervals`, `detected_keywords` and
`keyword_positions` of `detect_keywords` (lines 45 to 47 of `src/KWS.py`);
the function returns exactly this triple on line 60. -/
structure DetectState where
  intervals : List (List Char × Nat × Nat)
  detected : List (List Char)
  positions : List (List Char × List (Nat × Nat))
deriving DecidableEq

/-- The `for keyword in keywords` loop of `detect_keywords` (lines 50 to 59
of `src/KWS.py`), run over the already lower-cased transcription `t`;
`none` models the `KeyError` raised on line 57 when the lower-cased keyword
is not a key of `keyword_positions`. -/
def detectFold (t : List Char) : List (List Char) → DetectState → Option DetectState
  | [], st => some st
  | kw :: rest, st =>
    match strFind t (pyLower kw) with
    | some s =>
      match dictAppend (pyLower kw) (s, s + (pyLower kw).length) st.positions with
      | some d =>
        detectFold t rest
          ⟨st.intervals ++ [(pyLower kw, s, s + (pyLower kw).length)],
           st.detected ++ [pyLower kw], d⟩
      | none => none
    | none => detectFold t rest st

/-- `detect_keywords` (lines 41 to 60 of `src/KWS.py`).  A `none`
transcription models Python `None`; the overall result is `none` exactly
when the call raises `KeyError` on line 57. -/
def detect_keywords (transcription : Option (List Char)) (keywords : List (List Char)) :
    Option DetectState :=
  match transcription with
  | none => some ⟨[], [], dictInit keywords⟩
  | some t =>
    if t = [] then some ⟨[], [], dictInit keywords⟩
    else detectFold (pyLower t) keywords ⟨[], [], dictInit keywords⟩

/-- `len(set(detected_keywords) & set(keywords))` (line 66 of `src/KWS.py`):
the number of distinct detected keywords that are also expected keywords. -/
def agg_tp (detected keywords : List (List Char)) : Nat :=
  ((dedupFirst detected).filter (fun d => decide (d ∈ keywords))).length

/-- `compute_accuracy` (lines 62 to 74 of `src/KWS.py`), returning the
triple (precision, recall', f1_score) over exact rationals. -/
def compute_accuracy (detected_keywords keywords : List (List Char)) : ℚ × ℚ × ℚ :=
  let true_positives : ℚ := (agg_tp detected_keywords keywords : ℚ)
  let false_positives : ℚ := (detected_keywords.length : ℚ) - true_positives
  let false_negatives : ℚ := (keywords.length : ℚ) - true_positives
  let precision : ℚ :=
    if true_positives + false_positives > 0 then
      true_positives / (true_positives + false_positives) else 0
  let recall' : ℚ :=
    if true_positives + false_negatives > 0 then
      true_positives / (true_positives + false_negatives) else 0
  let f1_score : ℚ :=
    if precision + recall' > 0 then
      2 * (precision * recall') / (precision + recall') else 0
  (precision, recall', f1_score)

/-- Per-keyword metric record built on lines 90 to 97 of `src/KWS.py`. -/
structure KwMetrics where
  precision : ℚ
  recall' : ℚ
  f1_score : ℚ
  true_positives : Nat
  false_positives : Nat
  false_negatives : Nat
deriving DecidableEq

/-- Body of the loop of `compute_individual_keyword_metrics` (lines 81 to 97
of `src/KWS.py`) for one keyword. -/
def metricsFor (keyword_positions : List (List Char × List (Nat × Nat)))
    (keyword : List Char) : KwMetrics :=
  let tp : Nat := (dictGet keyword_positions keyword).length
  let fp : Nat :=
    ((keyword_positions.filter (fun e => decide (e.1 ≠ keyword))).map
      (fun e => e.2.length)).sum
  let fn : Nat := if tp = 0 then 1 else 0
  let precision : ℚ :=
    if (tp : ℚ) + (fp : ℚ) > 0 then (tp : ℚ) / ((tp : ℚ) + (fp : ℚ)) else 0
  let recall' : ℚ :=
    if (tp : ℚ) + (fn : ℚ) > 0 then (tp : ℚ) / ((tp : ℚ) + (fn : ℚ)) else 0
  let f1_score : ℚ :=
    if precision + recall' > 0 then
      2 * (precision * recall') / (precision + recall') else 0
  ⟨precision, recall', f1_score, tp, fp, fn⟩

/-- `compute_individual_keyword_metrics` (lines 76 to 99 of `src/KWS.py`):
a dict from each input keyword to its metric record. -/
def compute_individual_keyword_metrics
    (keyword_positions : List (List Char × List (Nat × Nat)))
    (keywords : List (List Char)) : List (List Char × KwMetrics) :=
  (dedupFirst keywords).map (fun k => (k, metricsFor keyword_positions k))

/-- The time mapper of `main` (line 166 of `src/KWS.py`): rescale character
offsets to audio seconds by linear interpolation. -/
def keyword_intervals_in_time (keyword_intervals : List (List Char × Nat × Nat))
    (transcription_length : Nat) (audio_duration : ℚ) : List (List Char × ℚ × ℚ) :=
  keyword_intervals.map (fun x =>
    (x.1, (x.2.1 : ℚ) / (transcription_length : ℚ) * audio_duration,
          (x.2.2 : ℚ) / (transcription_length : ℚ) * audio_duration))

/-- Spec formula (section 4.2): `true_positives = |set(detected) ∩ set(keywords)|`,
written with finite sets, to be compared with the code's `agg_tp`. -/
def spec_true_positives (detected keywords : List (List Char)) : ℚ :=
  ((detected.toFinset ∩ keywords.toFinset).card : ℚ)

/-- Spec formula (section 4.2): precision = TP / (TP + FP) with
FP = |detected| - TP. -/
def spec_precision (detected keywords : List (List Char)) : ℚ :=
  spec_true_positives detected keywords /
    (spec_true_positives detected keywords +
      ((detected.length : ℚ) - spec_true_positives detected keywords))

/-- Spec formula (section 4.2): recall = TP / (TP + FN) with
FN = |keywords| - TP. -/
def spec_recall (detected keywords : List (List Char)) : ℚ :=
  spec_true_positives detected keywords /
    (spec_true_positives detected keywords +
      ((keywords.length : ℚ) - spec_true_positives detected keywords))

/-- Spec formula (section 4.2): F1 = 2·P·R / (P + R). -/
def spec_f1 (detected keywords : List (List Char)) : ℚ :=
  2 * (spec_precision detected keywords * spec_recall detected keywords) /
    (spec_precision detected keywords + spec_recall detected keywords)

/-! Helper lemmas about the embedded operations. -/

lemma takeMatch_eq_true {needle hay : List Char} :
    takeMatch needle hay = true ↔ hay.take needle.length = needle := by
  simp [takeMatch]

lemma strFindAux_spec (needle : List Char) :
    ∀ (hay : List Char) (j i : Nat), strFindAux needle hay j = some i →
      ∃ d, i = j + d ∧ d + needle.length ≤ hay.length ∧
        (hay.drop d).take needle.length = needle := by
  intro hay
  induction hay with
  | nil =>
      intro j i h
      rw [strFindAux] at h
      split at h
      · rename_i hm
        rw [takeMatch_eq_true] at hm
        have hn : needle = [] := by simpa using hm.symm
        cases h
        exact ⟨0, by omega, by simp [hn], by simp [hn]⟩
      · cases h
  | cons c tl ih =>
      intro j i h
      rw [strFindAux] at h
      split at h
      · rename_i hm
        rw [takeMatch_eq_true] at hm
        cases h
        refine ⟨0, by omega, ?_, by simpa using hm⟩
        have hlen := congrArg List.length hm
        simp [List.length_take] at hlen
        simp
        omega
      · obtain ⟨d, hd1, hd2, hd3⟩ := ih (j + 1) i h
        exact ⟨d + 1, by omega, by simp; omega, by simpa using hd3⟩

lemma strFind_spec {hay needle : List Char} {i : Nat} (h : strFind hay needle = some i) :
    i + needle.length ≤ hay.length ∧ (hay.drop i).take needle.length = needle := by
  obtain ⟨d, hd1, hd2, hd3⟩ := strFindAux_spec needle hay 0 i h
  have : i = d := by omega
  subst this
  exact ⟨hd2, hd3⟩

lemma dictAppend_mem {k : List Char} {v : Nat × Nat} :
    ∀ {d d' : List (List Char × List (Nat × Nat))}, dictAppend k v d = some d' →
      ∀ e ∈ d', e ∈ d ∨ ∃ vs, (k, vs) ∈ d ∧ e = (k, vs ++ [v]) := by
  intro d
  induction d with
  | nil => intro d' h; cases h
  | cons hd rest ih =>
      intro d' h e he
      rw [dictAppend] at h
      split at h
      · rename_i hk
        cases h
        rcases List.mem_cons.mp he with he1 | he1
        · refine Or.inr ⟨hd.2, ?_, by rw [he1, hk]⟩
          rw [← hk]
          exact List.mem_cons_self _ _
        · exact Or.inl (List.mem_cons_of_mem _ he1)
      · rename_i hk
        rcases Option.map_eq_some'.mp h with ⟨d2, hd2, hcons⟩
        rcases List.mem_cons.mp (hcons ▸ he) with he1 | he1
        · exact Or.inl (he1 ▸ List.mem_cons_self _ _)
        · rcases ih hd2 e he1 with h1 | ⟨vs, hvs, heq⟩
          · exact Or.inl (List.mem_cons_of_mem _ h1)
          · exact Or.inr ⟨vs, List.mem_cons_of_mem _ hvs, heq⟩

lemma dictAppend_keys {k : List Char} {v : Nat × Nat} :
    ∀ {d d' : List (List Char × List (Nat × Nat))}, dictAppend k v d = some d' →
      d'.map Prod.fst = d.map Prod.fst := by
  intro d
  induction d with
  | nil => intro d' h; cases h
  | cons hd rest ih =>
      intro d' h
      rw [dictAppend] at h
      split at h
      · cases h
        simp
      · rcases Option.map_eq_some'.mp h with ⟨d2, hd2, hcons⟩
        rw [← hcons]
        simpa using ih hd2

lemma mem_dedupFirst {x : List Char} :
    ∀ {l : List (List Char)}, x ∈ dedupFirst l ↔ x ∈ l := by
  intro l
  induction l with
  | nil => simp [dedupFirst]
  | cons k rest ih =>
      rw [dedupFirst]
      simp only [List.mem_cons, List.mem_filter, ih, decide_eq_true_eq]
      constructor
      · rintro (h | ⟨h1, _⟩)
        · exact Or.inl h
        · exact Or.inr h1
      · rintro (h | h1)
        · exact Or.inl h
        · by_cases hxk : x = k
          · exact Or.inl hxk
          · exact Or.inr ⟨h1, hxk⟩

lemma dedupFirst_nodup (l : List (List Char)) : (dedupFirst l).Nodup := by
  induction l with
  | nil => simp [dedupFirst]
  | cons k rest ih =>
      rw [dedupFirst]
      refine List.nodup_cons.mpr ⟨?_, ih.filter _⟩
      intro hmem
      rw [List.mem_filter] at hmem
      simp at hmem

lemma dedupFirst_length_le (l : List (List Char)) :
    (dedupFirst l).length ≤ l.length := by
  induction l with
  | nil => simp [dedupFirst]
  | cons k rest ih =>
      rw [dedupFirst]
      have := List.length_filter_le (fun x => decide (x ≠ k)) (dedupFirst rest)
      simp only [List.length_cons]
      omega

lemma dictInit_keys (keywords : List (List Char)) :
    (dictInit keywords).map Prod.fst = dedupFirst keywords := by
  simp [dictInit, Function.comp_def]

lemma dictInit_mem {keywords : List (List Char)}
    {e : List Char × List (Nat × Nat)} (he : e ∈ dictInit keywords) : e.2 = [] := by
  rcases List.mem_map.mp he with ⟨k, _, hk⟩
  rw [← hk]

lemma detectFold_cons (t kw : List Char) (rest : List (List Char)) (st : DetectState) :
    detectFold t (kw :: rest) st =
      match strFind t (pyLower kw) with
      | some s =>
        match dictAppend (pyLower kw) (s, s + (pyLower kw).length) st.positions with
        | some d =>
          detectFold t rest
            ⟨st.intervals ++ [(pyLower kw, s, s + (pyLower kw).length)],
             st.detected ++ [pyLower kw], d⟩
        | none => none
      | none => detectFold t rest st := rfl

lemma detectFold_cons_notfound {t kw : List Char} (rest : List (List Char))
    (st : DetectState) (hf : strFind t (pyLower kw) = none) :
    detectFold t (kw :: rest) st = detectFold t rest st := by
  simp only [detectFold_cons, hf]

lemma detectFold_cons_found {t kw : List Char} {s : Nat}
    {d : List (List Char × List (Nat × Nat))} (rest : List (List Char))
    (st : DetectState) (hf : strFind t (pyLower kw) = some s)
    (hd : dictAppend (pyLower kw) (s, s + (pyLower kw).length) st.positions = some d) :
    detectFold t (kw :: rest) st =
      detectFold t rest
        ⟨st.intervals ++ [(pyLower kw, s, s + (pyLower kw).length)],
         st.detected ++ [pyLower kw], d⟩ := by
  simp only [detectFold_cons, hf, hd]

lemma detectFold_cons_keyerr {t kw : List Char} {s : Nat} (rest : List (List Char))
    (st : DetectState) (hf : strFind t (pyLower kw) = some s)
    (hd : dictAppend (pyLower kw) (s, s + (pyLower kw).length) st.positions = none) :
    detectFold t (kw :: rest) st = none := by
  simp only [detectFold_cons, hf, hd]

lemma detectFold_mem_intervals (t : List Char) :
    ∀ (kws : List (List Char)) (st st' : DetectState),
      detectFold t kws st = some st' → ∀ x ∈ st'.intervals,
        x ∈ st.intervals ∨ ∃ kw s, kw ∈ kws ∧ strFind t (pyLower kw) = some s ∧
          x = (pyLower kw, s, s + (pyLower kw).length) := by
  intro kws
  induction kws with
  | nil =>
      intro st st' h x hx
      cases h
      exact Or.inl hx
  | cons kw rest ih =>
      intro st st' h x hx
      cases hf : strFind t (pyLower kw) with
      | none =>
          rw [detectFold_cons_notfound rest st hf] at h
          rcases ih st st' h x hx with h1 | ⟨kw', s', hm, hfind, hx'⟩
          · exact Or.inl h1
          · exact Or.inr ⟨kw', s', List.mem_cons_of_mem _ hm, hfind, hx'⟩
      | some s =>
          cases hd : dictAppend (pyLower kw) (s, s + (pyLower kw).length) st.positions with
          | none => rw [detectFold_cons_keyerr rest st hf hd] at h; cases h
          | some d =>
              rw [detectFold_cons_found rest st hf hd] at h
              rcases ih _ st' h x hx with h1 | ⟨kw', s', hm, hfind, hx'⟩
              · rcases List.mem_append.mp h1 with h2 | h2
                · exact Or.inl h2
                · exact Or.inr ⟨kw, s, List.mem_cons_self _ _, hf, by simpa using h2⟩
              · exact Or.inr ⟨kw', s', List.mem_cons_of_mem _ hm, hfind, hx'⟩

lemma detectFold_mem_detected (t : List Char) :
    ∀ (kws : List (List Char)) (st st' : DetectState),
      detectFold t kws st = some st' → ∀ x ∈ st'.detected,
        x ∈ st.detected ∨ ∃ kw, kw ∈ kws ∧ x = pyLower kw := by
  intro kws
  induction kws with
  | nil =>
      intro st st' h x hx
      cases h
      exact Or.inl hx
  | cons kw rest ih =>
      intro st st' h x hx
      cases hf : strFind t (pyLower kw) with
      | none =>
          rw [detectFold_cons_notfound rest st hf] at h
          rcases ih st st' h x hx with h1 | ⟨kw', hm, hx'⟩
          · exact Or.inl h1
          · exact Or.inr ⟨kw', List.mem_cons_of_mem _ hm, hx'⟩
      | some s =>
          cases hd : dictAppend (pyLower kw) (s, s + (pyLower kw).length) st.positions with
          | none => rw [detectFold_cons_keyerr rest st hf hd] at h; cases h
          | some d =>
              rw [detectFold_cons_found rest st hf hd] at h
              rcases ih _ st' h x hx with h1 | ⟨kw', hm, hx'⟩
              · rcases List.mem_append.mp h1 with h2 | h2
                · exact Or.inl h2
                · exact Or.inr ⟨kw, List.mem_cons_self _ _, by simpa using h2⟩
              · exact Or.inr ⟨kw', List.mem_cons_of_mem _ hm, hx'⟩

lemma detectFold_keys (t : List Char) :
    ∀ (kws : List (List Char)) (st st' : DetectState),
      detectFold t kws st = some st' →
        st'.positions.map Prod.fst = st.positions.map Prod.fst := by
  intro kws
  induction kws with
  | nil => intro st st' h; cases h; rfl
  | cons kw rest ih =>
      intro st st' h
      cases hf : strFind t (pyLower kw) with
      | none =>
          rw [detectFold_cons_notfound rest st hf] at h
          exact ih st st' h
      | some s =>
          cases hd : dictAppend (pyLower kw) (s, s + (pyLower kw).length) st.positions with
          | none => rw [detectFold_cons_keyerr rest st hf hd] at h; cases h
          | some d =>
              rw [detectFold_cons_found rest st hf hd] at h
              rw [ih _ st' h]
              exact dictAppend_keys hd

lemma detectFold_intervals_length (t : List Char) :
    ∀ (kws : List (List Char)) (st st' : DetectState),
      detectFold t kws st = some st' →
        st'.intervals.length ≤ st.intervals.length + kws.length := by
  intro kws
  induction kws with
  | nil => intro st st' h; cases h; simp
  | cons kw rest ih =>
      intro st st' h
      cases hf : strFind t (pyLower kw) with
      | none =>
          rw [detectFold_cons_notfound rest st hf] at h
          have := ih st st' h
          simp only [List.length_cons]
          omega
      | some s =>
          cases hd : dictAppend (pyLower kw) (s, s + (pyLower kw).length) st.positions with
          | none => rw [detectFold_cons_keyerr rest st hf hd] at h; cases h
          | some d =>
              rw [detectFold_cons_found rest st hf hd] at h
              have := ih _ st' h
              simp only [List.length_append, List.length_cons, List.length_nil] at this ⊢
              omega

lemma detectFold_positions_bound (t : List Char) :
    ∀ (kws : List (List Char)) (st st' : DetectState),
      (kws.map pyLower).Nodup →
      detectFold t kws st = some st' →
      (∀ e ∈ st.positions, e.2.length ≤ 1 ∧ (e.2 ≠ [] → e.1 ∉ kws.map pyLower)) →
      ∀ e ∈ st'.positions, e.2.length ≤ 1 := by
  intro kws
  induction kws with
  | nil =>
      intro st st' _ h hinv e he
      cases h
      exact (hinv e he).1
  | cons kw rest ih =>
      intro st st' hnd h hinv
      have hnd2 : pyLower kw ∉ rest.map pyLower ∧ (rest.map pyLower).Nodup := by
        rw [List.map_cons, List.nodup_cons] at hnd
        exact hnd
      cases hf : strFind t (pyLower kw) with
      | none =>
          rw [detectFold_cons_notfound rest st hf] at h
          refine ih st st' hnd2.2 h ?_
          intro e he
          refine ⟨(hinv e he).1, fun hne hc => ?_⟩
          exact (hinv e he).2 hne (by simp only [List.map_cons, List.mem_cons]; exact Or.inr hc)
      | some s =>
          cases hd : dictAppend (pyLower kw) (s, s + (pyLower kw).length) st.positions with
          | none => rw [detectFold_cons_keyerr rest st hf hd] at h; cases h
          | some d =>
              rw [detectFold_cons_found rest st hf hd] at h
              refine ih _ st' hnd2.2 h ?_
              intro e he
              rcases dictAppend_mem hd e he with hold | ⟨vs, hvs, heq⟩
              · refine ⟨(hinv e hold).1, fun hne hc => ?_⟩
                exact (hinv e hold).2 hne
                  (by simp only [List.map_cons, List.mem_cons]; exact Or.inr hc)
              · have hvs0 : vs = [] := by
                  by_contra hne
                  exact (hinv (pyLower kw, vs) hvs).2 hne
                    (by rw [List.map_cons]; exact List.mem_cons_self _ _)
                subst hvs0
                subst heq
                exact ⟨by simp, fun _ hc => absurd hc hnd2.1⟩

lemma detect_keywords_some {t : List Char} (kws : List (List Char)) (ht : t ≠ []) :
    detect_keywords (some t) kws = detectFold (pyLower t) kws ⟨[], [], dictInit kws⟩ := by
  simp [detect_keywords, ht]

lemma detect_keywords_empty {t : List Char} (kws : List (List Char)) (ht : t = []) :
    detect_keywords (some t) kws = some ⟨[], [], dictInit kws⟩ := by
  subst ht
  rfl

lemma agg_tp_le_detected (detected kws : List (List Char)) :
    agg_tp detected kws ≤ detected.length :=
  le_trans (List.length_filter_le _ _) (dedupFirst_length_le detected)

lemma agg_tp_le_keywords (detected kws : List (List Char)) :
    agg_tp detected kws ≤ kws.length := by
  have hnd : ((dedupFirst detected).filter (fun d => decide (d ∈ kws))).Nodup :=
    (dedupFirst_nodup detected).filter _
  have hsub : ((dedupFirst detected).filter (fun d => decide (d ∈ kws))) ⊆ kws := by
    intro x hx
    have := List.mem_filter.mp hx
    simpa using this.2
  exact (List.subperm_of_subset hnd hsub).length_le

lemma agg_tp_eq_inter_card (detected kws : List (List Char)) :
    agg_tp detected kws = (detected.toFinset ∩ kws.toFinset).card := by
  rw [agg_tp, ← List.toFinset_card_of_nodup ((dedupFirst_nodup detected).filter _)]
  congr 1
  ext x
  simp [List.mem_filter, mem_dedupFirst]

lemma qdiv_guard (a b : ℚ) (hb : 0 ≤ b) : (if b > 0 then a / b else 0) = a / b := by
  rcases eq_or_lt_of_le hb with h | h
  · rw [← h]
    simp
  · rw [if_pos h]

lemma qdiv_guard_bounds (a b : ℚ) (ha : 0 ≤ a) (hab : a ≤ b) :
    0 ≤ (if b > 0 then a / b else 0) ∧ (if b > 0 then a / b else 0) ≤ 1 := by
  split_ifs with h
  · exact ⟨div_nonneg ha h.le, (div_le_one h).mpr hab⟩
  · exact ⟨le_refl 0, zero_le_one⟩

lemma metricsFor_tp (d : List (List Char × List (Nat × Nat))) (k : List Char) :
    (metricsFor d k).true_positives = (dictGet d k).length := rfl

lemma metricsFor_fp (d : List (List Char × List (Nat × Nat))) (k : List Char) :
    (metricsFor d k).false_positives =
      ((d.filter (fun e => decide (e.1 ≠ k))).map (fun e => e.2.length)).sum := rfl

lemma metricsFor_fn (d : List (List Char × List (Nat × Nat))) (k : List Char) :
    (metricsFor d k).false_negatives =
      if (dictGet d k).length = 0 then 1 else 0 := rfl

lemma metricsFor_recall (d : List (List Char × List (Nat × Nat))) (k : List Char) :
    (metricsFor d k).recall' = if (dictGet d k).length = 0 then 0 else 1 := by
  by_cases h : (dictGet d k).length = 0
  · simp [metricsFor, h]
  · have hpos : (0 : ℚ) < ((dictGet d k).length : ℚ) := by
      exact_mod_cast Nat.pos_of_ne_zero h
    simp only [metricsFor, h, if_false]
    push_cast
    rw [add_zero, if_pos hpos, div_self (ne_of_gt hpos)]

lemma mem_individual_metrics {kws : List (List Char)} {k : List Char}
    (d : List (List Char × List (Nat × Nat))) (hk : k ∈ kws) :
    (k, metricsFor d k) ∈ compute_individual_keyword_metrics d kws :=
  List.mem_map_of_mem _ (mem_dedupFirst.mpr hk)

/-! The claims. -/

/-- C1 (code bug): for T = "a quick fox" and K = ["Quick"], the lower-cased
keyword "quick" does occur at offsets (2, 7) of the lower-cased transcript,
yet `detect_keywords` does not return a result: `keyword_positions` is keyed
by the original-cased keyword (line 47 of `src/KWS.py`) while line 57
indexes it with the lower-cased keyword, so the call raises `KeyError`
(modelled as `none`) instead of recording the occurrence. -/
theorem detect_keywords_uppercase_keyerror :
    strFind (pyLower ("a quick fox".toList)) (pyLower ("Quick".toList)) = some 2 ∧
    2 + (pyLower ("Quick".toList)).length = 7 ∧
    detect_keywords (some ("a quick fox".toList)) [("Quick".toList)] = none :=
  ⟨by decide, by decide, by decide⟩

/-- C2 (counterexample): with transcript "abc" and the empty keyword, the
claimed strict inequality start < end fails: `detect_keywords` returns the
occurrence with start = end = 0. -/
theorem detect_keywords_offsets_counterexample :
    detect_keywords (some ("abc".toList)) [([] : List Char)] =
      some ⟨[(([] : List Char), 0, 0)], [([] : List Char)],
        [(([] : List Char), [(0, 0)])]⟩ ∧
    ¬((0 : Nat) < 0) :=
  ⟨by decide, by decide⟩

/-- C2 (amended): every occurrence (kw, start, end) returned by
`detect_keywords` satisfies 0 ≤ start ≤ end ≤ length of the lower-cased
transcript, the slice of the lower-cased transcript from start to end
equals the (lower-cased) keyword recorded in the occurrence, and
start < end whenever that keyword is non-empty. -/
theorem detect_keywords_offsets (t : List Char) (kws : List (List Char))
    (res : DetectState) (h : detect_keywords (some t) kws = some res)
    (kw : List Char) (s e : Nat) (hm : (kw, s, e) ∈ res.intervals) :
    s ≤ e ∧ e ≤ (pyLower t).length ∧ pySlice (pyLower t) s e = kw ∧
      (kw ≠ [] → s < e) := by
  by_cases ht : t = []
  · rw [detect_keywords_empty kws ht] at h
    rw [← Option.some.inj h] at hm
    cases hm
  · rw [detect_keywords_some kws ht] at h
    rcases detectFold_mem_intervals (pyLower t) kws _ res h (kw, s, e) hm with
      h1 | ⟨kw0, s0, _, hfind, heq⟩
    · cases h1
    · obtain ⟨h1, h2, h3⟩ : kw = pyLower kw0 ∧ s = s0 ∧ e = s0 + (pyLower kw0).length := by
        simpa [Prod.ext_iff] using heq
      subst h1
      subst h2
      subst h3
      have hspec := strFind_spec hfind
      refine ⟨Nat.le_add_right _ _, hspec.1, ?_, fun hne => ?_⟩
      · rw [pySlice, Nat.add_sub_cancel_left]
        exact hspec.2
      · have : 0 < (pyLower kw0).length := List.length_pos.mpr hne
        omega

/-- Witness for the amended C2 at T = "ab", K = ["a"]. -/
theorem detect_keywords_offsets_witness :
    detect_keywords (some ("ab".toList)) [("a".toList)] =
      some ⟨[(("a".toList), 0, 1)], [("a".toList)], [(("a".toList), [(0, 1)])]⟩ ∧
    (("a".toList), 0, 1) ∈
      (⟨[(("a".toList), 0, 1)], [("a".toList)],
        [(("a".toList), [(0, 1)])]⟩ : DetectState).intervals ∧
    ((0 : Nat) ≤ 1 ∧ 1 ≤ (pyLower ("ab".toList)).length ∧
      pySlice (pyLower ("ab".toList)) 0 1 = ("a".toList) ∧
      (("a".toList) ≠ [] → (0 : Nat) < 1)) :=
  ⟨by decide, by decide,
    detect_keywords_offsets ("ab".toList) [("a".toList)]
      ⟨[(("a".toList), 0, 1)], [("a".toList)], [(("a".toList), [(0, 1)])]⟩
      (by decide) ("a".toList) 0 1 (by decide)⟩

/-- C3 (counterexample): for an absent (None) transcript and the keyword
list ["anything"], the keyword-positions output of `detect_keywords` is not
the empty mapping: it keeps the keyword as a key, mapped to the empty
occurrence list. -/
theorem detect_keywords_absent_counterexample :
    (detect_keywords none [("anything".toList)]).map DetectState.positions =
      some [(("anything".toList), [])] ∧
    [(("anything".toList), ([] : List (Nat × Nat)))] ≠ [] :=
  ⟨by decide, by decide⟩

/-- C3 (amended): if the transcript is absent (None or the empty string),
`detect_keywords` returns without error with an empty occurrence list, an
empty detected list, and a keyword-positions mapping that keeps one key per
distinct input keyword, each mapped to the empty occurrence list; the
aggregate metrics on the empty detected list are (0, 0, 0). -/
theorem detect_keywords_absent (kws : List (List Char)) :
    detect_keywords none kws = some ⟨[], [], dictInit kws⟩ ∧
    detect_keywords (some []) kws = some ⟨[], [], dictInit kws⟩ ∧
    (∀ e ∈ dictInit kws, e.2 = []) ∧
    compute_accuracy [] kws = (0, 0, 0) := by
  refine ⟨rfl, by simp [detect_keywords], fun e he => dictInit_mem he, ?_⟩
  have h0 : agg_tp [] kws = 0 := by simp [agg_tp, dedupFirst]
  simp [compute_accuracy, h0, zero_div]

/-- C4 (counterexample): with transcript "a" and the duplicate keyword list
["a", "a"], the keyword's list in the keyword-positions mapping has length
2, not 0 or 1. -/
theorem detect_keywords_duplicate_counterexample :
    (detect_keywords (some ("a".toList)) [("a".toList), ("a".toList)]).map
        DetectState.positions =
      some [(("a".toList), [(0, 1), (0, 1)])] ∧
    ¬(([(0, 1), (0, 1)] : List (Nat × Nat)).length ≤ 1) :=
  ⟨by decide, by decide⟩

/-- C4 (amended): provided no two input keywords share the same
lower-casing, each keyword's list in the keyword-positions mapping returned
by `detect_keywords` has length 0 or 1 (only the first match of the single
substring search per keyword is recorded); moreover the occurrence list
never exceeds one entry per input keyword, so repeated appearances of a
keyword in the transcript add nothing. -/
theorem detect_keywords_first_match (tr : Option (List Char)) (kws : List (List Char))
    (res : DetectState) (hnd : (kws.map pyLower).Nodup)
    (h : detect_keywords tr kws = some res) :
    (∀ e ∈ res.positions, e.2.length ≤ 1) ∧ res.intervals.length ≤ kws.length := by
  have hinit : ∀ e ∈ dictInit kws,
      e.2.length ≤ 1 ∧ (e.2 ≠ [] → e.1 ∉ kws.map pyLower) := by
    intro e he
    rw [dictInit_mem he]
    exact ⟨by simp, fun hne => absurd rfl hne⟩
  cases tr with
  | none =>
      simp only [detect_keywords, Option.some.injEq] at h
      rw [← h]
      exact ⟨fun e he => (hinit e he).1, by simp⟩
  | some t =>
      by_cases ht : t = []
      · rw [detect_keywords_empty kws ht] at h
        rw [← Option.some.inj h]
        exact ⟨fun e he => (hinit e he).1, by simp⟩
      · rw [detect_keywords_some kws ht] at h
        refine ⟨detectFold_positions_bound (pyLower t) kws _ res hnd h hinit, ?_⟩
        have := detectFold_intervals_length (pyLower t) kws _ res h
        simpa using this

/-- Witness for the amended C4 at T = "a", K = ["a"]. -/
theorem detect_keywords_first_match_witness :
    (([("a".toList)].map pyLower).Nodup) ∧
    detect_keywords (some ("a".toList)) [("a".toList)] =
      some ⟨[(("a".toList), 0, 1)], [("a".toList)], [(("a".toList), [(0, 1)])]⟩ ∧
    ((∀ e ∈ (⟨[(("a".toList), 0, 1)], [("a".toList)],
        [(("a".toList), [(0, 1)])]⟩ : DetectState).positions, e.2.length ≤ 1) ∧
      (⟨[(("a".toList), 0, 1)], [("a".toList)],
        [(("a".toList), [(0, 1)])]⟩ : DetectState).intervals.length ≤
        [("a".toList)].length) :=
  ⟨by decide, by decide,
    detect_keywords_first_match (some ("a".toList)) [("a".toList)]
      ⟨[(("a".toList), 0, 1)], [("a".toList)], [(("a".toList), [(0, 1)])]⟩
      (by decide) (by decide)⟩

/-- C5 (confirmed): for every keyword k of the input list, the per-keyword
metrics define true_positives(k) as the number of occurrences recorded for
k, false_positives(k) as the total occurrences recorded for all other keys
of the mapping, and false_negatives(k) as 1 iff k has no occurrence; in the
scenario K = ["a", "b"] with "a" detected once and "b" undetected,
false_positives("b") = 1. -/
theorem individual_metrics_definition (d : List (List Char × List (Nat × Nat)))
    (kws : List (List Char)) (k : List Char) (hk : k ∈ kws) :
    (∃ m, (k, m) ∈ compute_individual_keyword_metrics d kws ∧
      m.true_positives = (dictGet d k).length ∧
      m.false_positives =
        ((d.filter (fun e => decide (e.1 ≠ k))).map (fun e => e.2.length)).sum ∧
      m.false_negatives = (if (dictGet d k).length = 0 then 1 else 0)) ∧
    detect_keywords (some ("a".toList)) [("a".toList), ("b".toList)] =
      some ⟨[(("a".toList), 0, 1)], [("a".toList)],
        [(("a".toList), [(0, 1)]), (("b".toList), [])]⟩ ∧
    (metricsFor [(("a".toList), [(0, 1)]), (("b".toList), [])]
      ("b".toList)).false_positives = 1 :=
  ⟨⟨metricsFor d k, mem_individual_metrics d hk, metricsFor_tp d k,
      metricsFor_fp d k, metricsFor_fn d k⟩, by decide, by decide⟩

/-- Witness for C5 at the mapping produced by T = "a", K = ["a", "b"]. -/
theorem individual_metrics_definition_witness :
    ("b".toList) ∈ [("a".toList), ("b".toList)] ∧
    ((∃ m, (("b".toList), m) ∈ compute_individual_keyword_metrics
        [(("a".toList), [(0, 1)]), (("b".toList), [])] [("a".toList), ("b".toList)] ∧
      m.true_positives =
        (dictGet [(("a".toList), [(0, 1)]), (("b".toList), [])] ("b".toList)).length ∧
      m.false_positives =
        (([(("a".toList), [(0, 1)]), (("b".toList), [])].filter
          (fun e => decide (e.1 ≠ ("b".toList)))).map (fun e => e.2.length)).sum ∧
      m.false_negatives =
        (if (dictGet [(("a".toList), [(0, 1)]), (("b".toList), [])]
          ("b".toList)).length = 0 then 1 else 0)) ∧
    detect_keywords (some ("a".toList)) [("a".toList), ("b".toList)] =
      some ⟨[(("a".toList), 0, 1)], [("a".toList)],
        [(("a".toList), [(0, 1)]), (("b".toList), [])]⟩ ∧
    (metricsFor [(("a".toList), [(0, 1)]), (("b".toList), [])]
      ("b".toList)).false_positives = 1) :=
  ⟨by decide,
    individual_metrics_definition [(("a".toList), [(0, 1)]), (("b".toList), [])]
      [("a".toList), ("b".toList)] ("b".toList) (by decide)⟩

/-- C9 (confirmed): when every keyword has at most one recorded occurrence,
the per-keyword recall is exactly 1 for a keyword with a recorded
occurrence and exactly 0 for one without, because false_negatives is forced
to 0 whenever true_positives > 0. -/
theorem individual_recall_binary (d : List (List Char × List (Nat × Nat)))
    (kws : List (List Char)) (k : List Char)
    (_hone : ∀ e ∈ d, e.2.length ≤ 1) (hk : k ∈ kws) :
    ∃ m, (k, m) ∈ compute_individual_keyword_metrics d kws ∧
      (dictGet d k ≠ [] → m.recall' = 1) ∧
      (dictGet d k = [] → m.recall' = 0) ∧
      (0 < m.true_positives → m.false_negatives = 0) := by
  refine ⟨metricsFor d k, mem_individual_metrics d hk, ?_, ?_, ?_⟩
  · intro hne
    rw [metricsFor_recall, if_neg (by simpa [List.length_eq_zero] using hne)]
  · intro heq
    rw [metricsFor_recall, if_pos (by simp [heq])]
  · intro hpos
    rw [metricsFor_tp] at hpos
    rw [metricsFor_fn, if_neg (by omega)]

/-- Witness for C9 at the mapping with "a" found once and "b" not found. -/
theorem individual_recall_binary_witness :
    (∀ e ∈ [(("a".toList), [((0 : Nat), (1 : Nat))]), (("b".toList), [])],
      e.2.length ≤ 1) ∧
    ("b".toList) ∈ [("a".toList), ("b".toList)] ∧
    (∃ m, (("b".toList), m) ∈ compute_individual_keyword_metrics
        [(("a".toList), [(0, 1)]), (("b".toList), [])] [("a".toList), ("b".toList)] ∧
      (dictGet [(("a".toList), [(0, 1)]), (("b".toList), [])] ("b".toList) ≠ [] →
        m.recall' = 1) ∧
      (dictGet [(("a".toList), [(0, 1)]), (("b".toList), [])] ("b".toList) = [] →
        m.recall' = 0) ∧
      (0 < m.true_positives → m.false_negatives = 0)) :=
  ⟨by decide, by decide,
    individual_recall_binary [(("a".toList), [(0, 1)]), (("b".toList), [])]
      [("a".toList), ("b".toList)] ("b".toList) (by decide) (by decide)⟩

/-- C6 (confirmed): `compute_accuracy` returns exactly the spec formulas
precision = TP/(TP+FP), recall = TP/(TP+FN), F1 = 2·P·R/(P+R) with
TP = |set(detected) ∩ set(keywords)|, FP = |detected| − TP and
FN = |keywords| − TP; in Scenario 1, T = "the quick brown fox" with
K = ["quick", "cat"] gives detected = ["quick"] and metrics
(1, 1/2, 2/3). -/
theorem compute_accuracy_formula (detected kws : List (List Char)) :
    compute_accuracy detected kws =
      (spec_precision detected kws, spec_recall detected kws, spec_f1 detected kws) ∧
    (detect_keywords (some ("the quick brown fox".toList))
        [("quick".toList), ("cat".toList)]).map DetectState.detected =
      some [("quick".toList)] ∧
    compute_accuracy [("quick".toList)] [("quick".toList), ("cat".toList)] =
      (1, 1/2, 2/3) := by
  refine ⟨?_, by decide, ?_⟩
  · have hA : (0 : ℚ) ≤ (agg_tp detected kws : ℚ) := Nat.cast_nonneg _
    have hD0 : (0 : ℚ) ≤ (detected.length : ℚ) := Nat.cast_nonneg _
    have hK0 : (0 : ℚ) ≤ (kws.length : ℚ) := Nat.cast_nonneg _
    have hTP : spec_true_positives detected kws = (agg_tp detected kws : ℚ) := by
      rw [spec_true_positives, agg_tp_eq_inter_card]
    have h1 : (agg_tp detected kws : ℚ) +
        ((detected.length : ℚ) - (agg_tp detected kws : ℚ)) = (detected.length : ℚ) := by
      ring
    have h2 : (agg_tp detected kws : ℚ) +
        ((kws.length : ℚ) - (agg_tp detected kws : ℚ)) = (kws.length : ℚ) := by
      ring
    simp only [compute_accuracy, spec_precision, spec_recall, spec_f1, hTP, h1, h2]
    rw [qdiv_guard _ _ hD0, qdiv_guard _ _ hK0]
    rw [qdiv_guard _ _ (add_nonneg (div_nonneg hA hD0) (div_nonneg hA hK0))]
  · have h : agg_tp [("quick".toList)] [("quick".toList), ("cat".toList)] = 1 := by
      decide
    simp only [compute_accuracy, h]
    norm_num

/-- C7 (confirmed): `compute_accuracy` never divides by zero: each metric
falls back to 0 when its denominator is 0, each returned metric lies in
[0, 1], and the empty-keyword-list case returns (0, 0, 0). -/
theorem compute_accuracy_safe (detected kws : List (List Char)) :
    (0 ≤ (compute_accuracy detected kws).1 ∧ (compute_accuracy detected kws).1 ≤ 1) ∧
    (0 ≤ (compute_accuracy detected kws).2.1 ∧
      (compute_accuracy detected kws).2.1 ≤ 1) ∧
    (0 ≤ (compute_accuracy detected kws).2.2 ∧
      (compute_accuracy detected kws).2.2 ≤ 1) ∧
    compute_accuracy detected [] = (0, 0, 0) := by
  have hA : (0 : ℚ) ≤ (agg_tp detected kws : ℚ) := Nat.cast_nonneg _
  have hD : (agg_tp detected kws : ℚ) ≤ (detected.length : ℚ) := by
    exact_mod_cast agg_tp_le_detected detected kws
  have hK : (agg_tp detected kws : ℚ) ≤ (kws.length : ℚ) := by
    exact_mod_cast agg_tp_le_keywords detected kws
  have h1 : (agg_tp detected kws : ℚ) +
      ((detected.length : ℚ) - (agg_tp detected kws : ℚ)) = (detected.length : ℚ) := by
    ring
  have h2 : (agg_tp detected kws : ℚ) +
      ((kws.length : ℚ) - (agg_tp detected kws : ℚ)) = (kws.length : ℚ) := by
    ring
  have hP := qdiv_guard_bounds (agg_tp detected kws : ℚ) (detected.length : ℚ) hA hD
  have hR := qdiv_guard_bounds (agg_tp detected kws : ℚ) (kws.length : ℚ) hA hK
  refine ⟨?_, ?_, ?_, ?_⟩
  · simp only [compute_accuracy, h1]
    exact hP
  · simp only [compute_accuracy, h1, h2]
    exact hR
  · simp only [compute_accuracy, h1, h2]
    set P := (if (detected.length : ℚ) > 0 then
      (agg_tp detected kws : ℚ) / (detected.length : ℚ) else 0) with hPdef
    set R := (if (kws.length : ℚ) > 0 then
      (agg_tp detected kws : ℚ) / (kws.length : ℚ) else 0) with hRdef
    constructor
    · split_ifs with h
      · refine div_nonneg ?_ h.le
        have := mul_nonneg hP.1 hR.1
        linarith
      · exact le_refl 0
    · split_ifs with h
      · refine (div_le_one h).mpr ?_
        have hm1 := mul_le_of_le_one_left hR.1 hP.2
        have hm2 := mul_le_of_le_one_right hP.1 hR.2
        linarith
      · exact zero_le_one
  · have h0 : agg_tp detected [] = 0 := by simp [agg_tp]
    simp [compute_accuracy, h0, zero_div]

/-- C8 (confirmed): with a non-zero transcript length L and audio duration
D, the time mapper sends each occurrence (kw, s, e) to the interval
(kw, s/L·D, e/L·D); in Scenario 4, L = 20, D = 10 and offsets (4, 9) give
the interval (2.0, 4.5) seconds. -/
theorem time_mapper_linear (ivs : List (List Char × Nat × Nat)) (L : Nat) (D : ℚ)
    (_hL : L ≠ 0) :
    (∀ kw s e, (kw, s, e) ∈ ivs →
      (kw, (s : ℚ) / (L : ℚ) * D, (e : ℚ) / (L : ℚ) * D) ∈
        keyword_intervals_in_time ivs L D) ∧
    keyword_intervals_in_time [(("quick".toList), 4, 9)] 20 10 =
      [(("quick".toList), 2, 9/2)] := by
  constructor
  · intro kw s e hm
    exact List.mem_map_of_mem _ hm
  · rw [keyword_intervals_in_time]
    norm_num

/-- Witness for C8 at L = 20, D = 10 and the single occurrence (4, 9). -/
theorem time_mapper_linear_witness :
    (20 : Nat) ≠ 0 ∧
    ((∀ kw s e, (kw, s, e) ∈ [(("quick".toList), (4 : Nat), (9 : Nat))] →
      (kw, (s : ℚ) / ((20 : Nat) : ℚ) * 10, (e : ℚ) / ((20 : Nat) : ℚ) * 10) ∈
        keyword_intervals_in_time [(("quick".toList), 4, 9)] 20 10) ∧
    keyword_intervals_in_time [(("quick".toList), 4, 9)] 20 10 =
      [(("quick".toList), 2, 9/2)]) :=
  ⟨by decide, time_mapper_linear [(("quick".toList), 4, 9)] 20 10 (by decide)⟩

/-- C10 (confirmed): whenever `detect_keywords` returns, every entry of the
detected list and every keyword component of the occurrence list is the
lower-cased form of some input keyword, while the keys of the
keyword-positions mapping are exactly the original-cased input keywords
(deduplicated, in first-appearance order). -/
theorem detect_keywords_lowercased (tr : Option (List Char)) (kws : List (List Char))
    (res : DetectState) (h : detect_keywords tr kws = some res) :
    (∀ x ∈ res.detected, ∃ kw, kw ∈ kws ∧ x = pyLower kw) ∧
    (∀ x ∈ res.intervals, ∃ kw, kw ∈ kws ∧ x.1 = pyLower kw) ∧
    res.positions.map Prod.fst = dedupFirst kws := by
  cases tr with
  | none =>
      have h2 : (⟨[], [], dictInit kws⟩ : DetectState) = res := Option.some.inj h
      rw [← h2]
      exact ⟨by simp, by simp, dictInit_keys kws⟩
  | some t =>
      by_cases ht : t = []
      · rw [detect_keywords_empty kws ht] at h
        have h2 : (⟨[], [], dictInit kws⟩ : DetectState) = res := Option.some.inj h
        rw [← h2]
        exact ⟨by simp, by simp, dictInit_keys kws⟩
      · rw [detect_keywords_some kws ht] at h
        refine ⟨?_, ?_, ?_⟩
        · intro x hx
          rcases detectFold_mem_detected (pyLower t) kws _ res h x hx with h1 | h1
          · simp at h1
          · exact h1
        · intro x hx
          rcases detectFold_mem_intervals (pyLower t) kws _ res h x hx with
            h1 | ⟨kw, s, hkw, _, hx'⟩
          · simp at h1
          · exact ⟨kw, hkw, by rw [hx']⟩
        · rw [detectFold_keys (pyLower t) kws _ res h]
          exact dictInit_keys kws

/-- Witness for C10 at T = "ab", K = ["a"]. -/
theorem detect_keywords_lowercased_witness :
    detect_keywords (some ("ab".toList)) [("a".toList)] =
      some ⟨[(("a".toList), 0, 1)], [("a".toList)], [(("a".toList), [(0, 1)])]⟩ ∧
    ((∀ x ∈ (⟨[(("a".toList), 0, 1)], [("a".toList)],
        [(("a".toList), [(0, 1)])]⟩ : DetectState).detected,
      ∃ kw, kw ∈ [("a".toList)] ∧ x = pyLower kw) ∧
    (∀ x ∈ (⟨[(("a".toList), 0, 1)], [("a".toList)],
        [(("a".toList), [(0, 1)])]⟩ : DetectState).intervals,
      ∃ kw, kw ∈ [("a".toList)] ∧ x.1 = pyLower kw) ∧
    (⟨[(("a".toList), 0, 1)], [("a".toList)],
        [(("a".toList), [(0, 1)])]⟩ : DetectState).positions.map Prod.fst =
      dedupFirst [("a".toList)]) :=
  ⟨by decide,
    detect_keywords_lowercased (some ("ab".toList)) [("a".toList)]
      ⟨[(("a".toList), 0, 1)], [("a".toList)], [(("a".toList), [(0, 1)])]⟩
      (by decide)⟩
